import Mathlib

set_option autoImplicit false

/-!
Shallow embedding of the repository's single source file,
`src/helpers/onehot_encode.py`:

```python
def onehot_encode(df, column_name):
    categories = [f"{column_name}_{value}" for value in df[column_name].unique()]
    df = df.drop(categories, axis=1, errors="ignore")
    temp_column_name = f"{column_name}_Temp"
    df[temp_column_name] = df[column_name]
    df = pd.get_dummies(df, prefix=column_name, columns=[temp_column_name], dtype=float)
    return df, categories
```

A dataframe is a list of named columns, each a dtype-tagged vector of cell
values.  The pandas operations used by the code are embedded one by one:

* `df[c]` is `getCol?` (first column of that name; `KeyError`, i.e.
  `ColumnNotFoundError`, when absent);
* `Series.unique()` is `uniqueFirst` (distinct values in first-occurrence
  order, a missing value counting as a distinct value);
* `df.drop(ns, axis=1, errors="ignore")` is `dropCols` (returns a new frame
  without the named columns, silently skipping absent names);
* `df[c] = s` is `setCol` (overwrite in place when the name exists, else
  append at the end);
* `pd.get_dummies(df, prefix=p, columns=[t], dtype=float)` is `get_dummies`:
  the non-encoded columns keep their original order, the encoded column is
  removed, and one float indicator column per distinct non-missing value is
  appended at the end, in ascending sorted order of the values
  (`dummy_na=False` by default, so missing values get no indicator column and
  rows holding them get all-zero indicators).
-/

/-- A cell value: a string, a number (Python `int`/`float`, where `1 == 1.0`),
or a missing value (NaN). -/
inductive Value where
  | str (s : String)
  | num (q : ℚ)
  | null
deriving DecidableEq

/-- Whether a cell is the missing value. -/
def Value.isNull : Value → Bool
  | .null => true
  | _ => false

/-- Python stringification of a cell value as used in f-strings and in
`get_dummies` column names; `float("nan")` prints as `"nan"`. -/
def stringify : Value → String
  | .str s => s
  | .num q => toString q
  | .null => "nan"

/-- The dtype tag pandas attaches to a column. -/
inductive Dtype where
  | object
  | float64
  | int64
  | bool64
deriving DecidableEq

/-- A column: a dtype together with the row-aligned vector of cell values. -/
structure Column where
  dtype : Dtype
  data : List Value
deriving DecidableEq

/-- A dataframe: an ordered list of named columns. -/
abbrev Table := List (String × Column)

/-- The column names of a table, in order. -/
def colNames (t : Table) : List String := t.map Prod.fst

/-- Boolean membership of a string in a name list (Python `in`). -/
def memStr (c : String) : List String → Bool
  | [] => false
  | n :: ns => if c = n then true else memStr c ns

/-- Boolean membership of a cell value in a value list (Python `in`). -/
def memVal (v : Value) : List Value → Bool
  | [] => false
  | w :: ws => if v = w then true else memVal v ws

/-- `df[c]`: the first column named `c`, if any. -/
def getCol? : Table → String → Option Column
  | [], _ => none
  | p :: t, c => if p.1 = c then some p.2 else getCol? t c

/-- `df.drop(ns, axis=1, errors="ignore")`: remove every column whose name is
listed, keeping the order of the rest. -/
def dropCols : Table → List String → Table
  | [], _ => []
  | p :: t, ns => if memStr p.1 ns then dropCols t ns else p :: dropCols t ns

/-- Overwrite every column named `c` in place (pandas `df[c] = s` when `c`
exists: position kept). -/
def overwriteCol : Table → String → Column → Table
  | [], _, _ => []
  | p :: t, c, col => if p.1 = c then (c, col) :: overwriteCol t c col
                      else p :: overwriteCol t c col

/-- `df[c] = s`: overwrite in place when a column named `c` exists, otherwise
append a new column at the end. -/
def setCol (t : Table) (c : String) (col : Column) : Table :=
  if (getCol? t c).isSome then overwriteCol t c col else t ++ [(c, col)]

/-- `Series.unique()`, generalized over the already-seen accumulator:
distinct values in order of first appearance. -/
def uniqueAux : List Value → List Value → List Value
  | [], _ => []
  | v :: vs, seen => if memVal v seen then uniqueAux vs seen
                     else v :: uniqueAux vs (v :: seen)

/-- `Series.unique()`: distinct values in order of first appearance (a missing
value is one of the distinct values). -/
def uniqueFirst (l : List Value) : List Value := uniqueAux l []

/-- Lexicographic strict order on character lists, by code point (Python's
string comparison). -/
def charListLt : List Char → List Char → Bool
  | _, [] => false
  | [], _ :: _ => true
  | a :: as, b :: bs =>
    if a.toNat < b.toNat then true
    else if b.toNat < a.toNat then false
    else charListLt as bs

/-- Strict order on strings: lexicographic by code point. -/
def strLt (a b : String) : Bool := charListLt a.data b.data

/-- Strict order on rationals by cross multiplication. -/
def ratLt (a b : ℚ) : Bool := decide (a.num * (b.den : ℤ) < b.num * (a.den : ℤ))

/-- The strict order pandas sorts category levels by: numbers before strings,
numbers numerically, strings lexicographically (missing values are filtered
out before sorting ever happens). -/
def vlt : Value → Value → Bool
  | .num a, .num b => ratLt a b
  | .num _, .str _ => true
  | .str _, .num _ => false
  | .str a, .str b => strLt a b
  | .null, _ => false
  | _, .null => true

/-- Insertion step of the sort on category levels. -/
def insertVal (v : Value) : List Value → List Value
  | [] => [v]
  | w :: ws => if vlt w v then w :: insertVal v ws else v :: w :: ws

/-- Ascending sort of category levels (insertion sort). -/
def sortVals : List Value → List Value
  | [] => []
  | v :: vs => insertVal v (sortVals vs)

/-- `get_dummies` column name for value `v` under `pre`: `pre`, `"_"`, then
the stringified value. -/
def dummyName (pre : String) (v : Value) : String := pre ++ "_" ++ stringify v

/-- The category levels `get_dummies` encodes for a data vector: the distinct
non-missing values, in ascending sorted order. -/
def dummyLevels (data : List Value) : List Value :=
  sortVals (uniqueFirst (data.filter (fun v => !v.isNull)))

/-- The float indicator column for level `lv` over a data vector: `1.0` where
the row's value equals `lv`, else `0.0`. -/
def indicatorColumn (lv : Value) (data : List Value) : Column :=
  ⟨Dtype.float64, data.map (fun x => if x = lv then Value.num 1 else Value.num 0)⟩

/-- The block of indicator columns `get_dummies` appends for a data vector,
under name `pre`: one float column per level, in level order. -/
def dummiesFor (pre : String) (data : List Value) : Table :=
  (dummyLevels data).map (fun lv => (dummyName pre lv, indicatorColumn lv data))

/-- `pd.get_dummies(t, prefix=pre, columns=[target], dtype=float)`: drop the
encoded column, keep every other column in order, append the indicator
columns at the end. -/
def get_dummies (t : Table) (pre : String) (target : String) : Table :=
  match getCol? t target with
  | none => t
  | some col => dropCols t [target] ++ dummiesFor pre col.data

/-- The list-comprehension on the first line of the source: one candidate
category name per distinct value of the column, in first-occurrence order. -/
def categoriesOf (c : String) (data : List Value) : List String :=
  (uniqueFirst data).map (fun v => c ++ "_" ++ stringify v)

/-- The one domain error: the referenced column is absent
(`ColumnNotFoundError`, pandas `KeyError`). -/
inductive EncodeError where
  | columnNotFound (name : String)
deriving DecidableEq

/-- The embedded `onehot_encode`: line-by-line image of the Python function.
The second column read happens on the frame returned by `drop`, exactly as in
the source. -/
def onehot_encode (df : Table) (c : String) :
    Except EncodeError (Table × List String) :=
  match getCol? df c with
  | none => .error (.columnNotFound c)
  | some col0 =>
    let categories := categoriesOf c col0.data
    let df1 := dropCols df categories
    match getCol? df1 c with
    | none => .error (.columnNotFound c)
    | some col1 =>
      let df2 := setCol df1 (c ++ "_Temp") col1
      .ok (get_dummies df2 c (c ++ "_Temp"), categories)

/-- The table component of an encoding result (empty table on error). -/
def resTable (r : Except EncodeError (Table × List String)) : Table :=
  match r with
  | .ok p => p.1
  | .error _ => []

/-- The category-name component of an encoding result (empty on error). -/
def resCats (r : Except EncodeError (Table × List String)) : List String :=
  match r with
  | .ok p => p.2
  | .error _ => []

/-- The columns of a table whose names are listed in `cats` (the indicator
columns, when `cats` is the returned category list). -/
def indicatorCols : Table → List String → Table
  | [], _ => []
  | p :: t, cats => if memStr p.1 cats then p :: indicatorCols t cats
                    else indicatorCols t cats

/-- The spec's running example: `{"id": [1,2,3], "color": ["red","blue","red"]}`. -/
def exT : Table :=
  [("id", ⟨Dtype.int64, [Value.num 1, Value.num 2, Value.num 3]⟩),
   ("color", ⟨Dtype.object, [Value.str "red", Value.str "blue", Value.str "red"]⟩)]

/-! ### Basic laws of the embedded dataframe operations -/

theorem colNames_cons (p : String × Column) (t : Table) :
    colNames (p :: t) = p.1 :: colNames t := rfl

theorem memStr_iff (c : String) (ns : List String) : memStr c ns = true ↔ c ∈ ns := by
  induction ns with
  | nil => simp [memStr]
  | cons n ns ih => by_cases h : c = n <;> simp [memStr, h, ih]

theorem memVal_iff (v : Value) (l : List Value) : memVal v l = true ↔ v ∈ l := by
  induction l with
  | nil => simp [memVal]
  | cons w l ih => by_cases h : v = w <;> simp [memVal, h, ih]

theorem getCol?_eq_none_iff (t : Table) (c : String) :
    getCol? t c = none ↔ ¬ c ∈ colNames t := by
  induction t with
  | nil => simp [getCol?, colNames]
  | cons p t ih =>
    rw [colNames_cons]
    by_cases h : p.1 = c
    · subst h
      simp [getCol?]
    · rw [getCol?, if_neg h, ih]
      have hne : ¬ c = p.1 := fun e => h e.symm
      simp [List.mem_cons, hne]

theorem getCol?_isSome_iff (t : Table) (c : String) :
    (getCol? t c).isSome = true ↔ c ∈ colNames t := by
  rcases e : getCol? t c with _ | col
  · simpa [e] using (getCol?_eq_none_iff t c).1 e
  · simp only [Option.isSome_some, true_iff]
    by_contra hc
    rw [(getCol?_eq_none_iff t c).2 hc] at e
    exact Option.noConfusion e

theorem getCol?_mem {t : Table} {c : String} {col : Column}
    (h : getCol? t c = some col) : (c, col) ∈ t := by
  induction t with
  | nil => exact absurd h (by simp [getCol?])
  | cons p t ih =>
    obtain ⟨a, b⟩ := p
    by_cases e : a = c
    · subst e
      rw [getCol?, if_pos rfl] at h
      obtain rfl : b = col := Option.some.inj h
      exact .head _
    · rw [getCol?, if_neg e] at h
      exact .tail _ (ih h)

theorem mem_dropCols (t : Table) (ns : List String) (p : String × Column) :
    p ∈ dropCols t ns ↔ p ∈ t ∧ ¬ p.1 ∈ ns := by
  induction t with
  | nil => simp [dropCols]
  | cons q t ih =>
    by_cases h : memStr q.1 ns
    · have hq : q.1 ∈ ns := (memStr_iff _ _).1 h
      rw [dropCols, if_pos h, ih]
      constructor
      · exact fun ⟨hm, hn⟩ => ⟨.tail _ hm, hn⟩
      · rintro ⟨hm, hn⟩
        cases hm with
        | head => exact absurd hq hn
        | tail _ hm => exact ⟨hm, hn⟩
    · have hq : ¬ q.1 ∈ ns := fun hm => h ((memStr_iff _ _).2 hm)
      rw [dropCols, if_neg h]
      constructor
      · intro hm
        cases hm with
        | head => exact ⟨.head _, hq⟩
        | tail _ hm => exact ⟨.tail _ (ih.1 hm).1, (ih.1 hm).2⟩
      · rintro ⟨hm, hn⟩
        cases hm with
        | head => exact .head _
        | tail _ hm => exact .tail _ (ih.2 ⟨hm, hn⟩)

theorem getCol?_dropCols (t : Table) (ns : List String) (c : String)
    (hc : ¬ c ∈ ns) : getCol? (dropCols t ns) c = getCol? t c := by
  induction t with
  | nil => rfl
  | cons p t ih =>
    by_cases h : memStr p.1 ns
    · have hp : p.1 ∈ ns := (memStr_iff _ _).1 h
      have hne : ¬ p.1 = c := fun e => hc (e ▸ hp)
      rw [dropCols, if_pos h, getCol?, if_neg hne, ih]
    · by_cases e : p.1 = c
      · rw [dropCols, if_neg h, getCol?, if_pos e, getCol?, if_pos e]
      · rw [dropCols, if_neg h, getCol?, if_neg e, getCol?, if_neg e, ih]

theorem dropCols_append (t₁ t₂ : Table) (ns : List String) :
    dropCols (t₁ ++ t₂) ns = dropCols t₁ ns ++ dropCols t₂ ns := by
  induction t₁ with
  | nil => rfl
  | cons p t ih => by_cases h : memStr p.1 ns <;> simp [dropCols, h, ih]

theorem dropCols_eq_self (t : Table) (ns : List String)
    (h : ∀ p ∈ t, ¬ p.1 ∈ ns) : dropCols t ns = t := by
  induction t with
  | nil => rfl
  | cons p t ih =>
    have hp : ¬ memStr p.1 ns := fun hm => h p (.head _) ((memStr_iff _ _).1 hm)
    rw [dropCols, if_neg hp, ih (fun q hq => h q (.tail _ hq))]

theorem dropCols_eq_nil (t : Table) (ns : List String)
    (h : ∀ p ∈ t, p.1 ∈ ns) : dropCols t ns = [] := by
  induction t with
  | nil => rfl
  | cons p t ih =>
    have hp : memStr p.1 ns := (memStr_iff _ _).2 (h p (.head _))
    rw [dropCols, if_pos hp, ih (fun q hq => h q (.tail _ hq))]

theorem dropCols_overwriteCol (t : Table) (c : String) (col : Column) :
    dropCols (overwriteCol t c col) [c] = dropCols t [c] := by
  induction t with
  | nil => rfl
  | cons p t ih =>
    by_cases e : p.1 = c
    · have h₁ : memStr c [c] := (memStr_iff _ _).2 (.head _)
      have h₂ : memStr p.1 [c] := (memStr_iff _ _).2 (e ▸ .head _)
      rw [overwriteCol, if_pos e, dropCols, if_pos h₁, dropCols, if_pos h₂, ih]
    · have h₂ : ¬ memStr p.1 [c] := fun hm => by
        have hm' := (memStr_iff _ _).1 hm
        simp at hm'
        exact e hm'
      rw [overwriteCol, if_neg e, dropCols, if_neg h₂, dropCols, if_neg h₂, ih]

theorem dropCols_setCol (t : Table) (c : String) (col : Column) :
    dropCols (setCol t c col) [c] = dropCols t [c] := by
  rw [setCol]
  by_cases h : (getCol? t c).isSome
  · rw [if_pos h, dropCols_overwriteCol]
  · have hc : memStr c [c] := (memStr_iff _ _).2 (.head _)
    rw [if_neg h, dropCols_append, dropCols, if_pos hc, dropCols, List.append_nil]

theorem getCol?_overwriteCol_self (t : Table) (c : String) (col : Column)
    (h : (getCol? t c).isSome = true) :
    getCol? (overwriteCol t c col) c = some col := by
  induction t with
  | nil => simp [getCol?] at h
  | cons p t ih =>
    by_cases e : p.1 = c
    · rw [overwriteCol, if_pos e, getCol?, if_pos rfl]
    · rw [getCol?, if_neg e] at h
      rw [overwriteCol, if_neg e, getCol?, if_neg e, ih h]

theorem getCol?_append_of_none {t₁ : Table} {c : String}
    (h : getCol? t₁ c = none) (t₂ : Table) :
    getCol? (t₁ ++ t₂) c = getCol? t₂ c := by
  induction t₁ with
  | nil => rfl
  | cons p t ih =>
    by_cases e : p.1 = c
    · rw [getCol?, if_pos e] at h; exact Option.noConfusion h
    · rw [getCol?, if_neg e] at h
      rw [List.cons_append, getCol?, if_neg e, ih h]

theorem getCol?_append_of_some {t₁ : Table} {c : String} {col : Column}
    (h : getCol? t₁ c = some col) (t₂ : Table) :
    getCol? (t₁ ++ t₂) c = some col := by
  induction t₁ with
  | nil => exact absurd h (by simp [getCol?])
  | cons p t ih =>
    by_cases e : p.1 = c
    · rw [getCol?, if_pos e] at h
      rw [List.cons_append, getCol?, if_pos e]; exact h
    · rw [getCol?, if_neg e] at h
      rw [List.cons_append, getCol?, if_neg e, ih h]

theorem getCol?_setCol_self (t : Table) (c : String) (col : Column) :
    getCol? (setCol t c col) c = some col := by
  rw [setCol]
  by_cases h : (getCol? t c).isSome
  · rw [if_pos h, getCol?_overwriteCol_self t c col h]
  · have hn : getCol? t c = none := by
      rcases e : getCol? t c with _ | x
      · rfl
      · rw [e] at h; simp at h
    rw [if_neg h, getCol?_append_of_none hn, getCol?, if_pos rfl]

/-! ### Distinct-value discovery and level sorting -/

theorem mem_uniqueAux (l : List Value) (seen : List Value) (a : Value) :
    a ∈ uniqueAux l seen ↔ a ∈ l ∧ ¬ a ∈ seen := by
  induction l generalizing seen with
  | nil => simp [uniqueAux]
  | cons v vs ih =>
    by_cases h : memVal v seen
    · have hv : v ∈ seen := (memVal_iff _ _).1 h
      rw [uniqueAux, if_pos h, ih]
      constructor
      · exact fun ⟨hm, hn⟩ => ⟨.tail _ hm, hn⟩
      · rintro ⟨hm, hn⟩
        cases hm with
        | head => exact absurd hv hn
        | tail _ hm => exact ⟨hm, hn⟩
    · have hv : ¬ v ∈ seen := fun hm => h ((memVal_iff _ _).2 hm)
      rw [uniqueAux, if_neg h]
      simp only [List.mem_cons, ih]
      constructor
      · rintro (rfl | ⟨hm, hn⟩)
        · exact ⟨Or.inl rfl, hv⟩
        · exact ⟨Or.inr hm, fun hs => hn (Or.inr hs)⟩
      · rintro ⟨he | hm, hn⟩
        · exact Or.inl he
        · by_cases e : a = v
          · exact Or.inl e
          · refine Or.inr ⟨hm, ?_⟩
            rintro (e' | hs)
            exacts [e e', hn hs]

theorem mem_uniqueFirst (l : List Value) (a : Value) :
    a ∈ uniqueFirst l ↔ a ∈ l := by
  rw [uniqueFirst, mem_uniqueAux]; simp

theorem uniqueAux_sublist (l : List Value) (seen : List Value) :
    (uniqueAux l seen).Sublist l := by
  induction l generalizing seen with
  | nil => simp [uniqueAux]
  | cons v vs ih =>
    by_cases h : memVal v seen
    · rw [uniqueAux, if_pos h]
      exact (ih seen).trans (List.sublist_cons_self v vs)
    · rw [uniqueAux, if_neg h]
      exact (ih (v :: seen)).cons₂ v

theorem uniqueFirst_sublist (l : List Value) : (uniqueFirst l).Sublist l :=
  uniqueAux_sublist l []

theorem uniqueAux_nodup (l : List Value) (seen : List Value) :
    (uniqueAux l seen).Nodup := by
  induction l generalizing seen with
  | nil => exact List.nodup_nil
  | cons v vs ih =>
    by_cases h : memVal v seen
    · rw [uniqueAux, if_pos h]; exact ih seen
    · rw [uniqueAux, if_neg h]
      refine List.Nodup.cons ?_ (ih (v :: seen))
      intro hm
      exact ((mem_uniqueAux _ _ _).1 hm).2 (.head _)

theorem uniqueFirst_nodup (l : List Value) : (uniqueFirst l).Nodup :=
  uniqueAux_nodup l []

theorem insertVal_perm (v : Value) (l : List Value) :
    (insertVal v l).Perm (v :: l) := by
  induction l with
  | nil => exact List.Perm.refl _
  | cons w ws ih =>
    rw [insertVal]
    by_cases h : vlt w v
    · rw [if_pos h]
      exact (ih.cons w).trans (List.Perm.swap v w ws)
    · rw [if_neg h]

theorem sortVals_perm (l : List Value) : (sortVals l).Perm l := by
  induction l with
  | nil => exact List.Perm.refl _
  | cons v vs ih => exact (insertVal_perm v (sortVals vs)).trans (ih.cons v)

theorem mem_dummyLevels (data : List Value) (lv : Value) :
    lv ∈ dummyLevels data ↔ lv ∈ data ∧ lv.isNull = false := by
  rw [dummyLevels, (sortVals_perm _).mem_iff, mem_uniqueFirst, List.mem_filter]
  simp [Bool.not_eq_true']

theorem dummyLevels_nodup (data : List Value) : (dummyLevels data).Nodup :=
  ((sortVals_perm _).nodup_iff).2 (uniqueAux_nodup _ _)

/-! ### Category-name arithmetic -/

theorem dummyName_ne_self (c : String) (v : Value) : ¬ dummyName c v = c := by
  intro h
  have hl := congrArg String.length h
  rw [dummyName, String.length_append, String.length_append] at hl
  have h1 : ("_" : String).length = 1 := rfl
  omega

theorem self_not_mem_categories (c : String) (data : List Value) :
    ¬ c ∈ categoriesOf c data := by
  rw [categoriesOf]
  intro h
  rcases List.mem_map.1 h with ⟨v, _, hv⟩
  have hl := congrArg String.length hv
  rw [String.length_append, String.length_append] at hl
  have h1 : ("_" : String).length = 1 := rfl
  omega

theorem temp_ne_self (c : String) : ¬ c ++ "_Temp" = c := by
  intro h
  have hl := congrArg String.length h
  rw [String.length_append] at hl
  have h1 : ("_Temp" : String).length = 5 := rfl
  omega

theorem dummyName_eq_temp_iff (c : String) (v : Value) :
    dummyName c v = c ++ "_Temp" ↔ stringify v = "Temp" := by
  have hsplit : (c ++ "_Temp") = (c ++ "_") ++ "Temp" := by
    have hlit : ("_" ++ "Temp" : String) = "_Temp" := by decide
    rw [String.append_assoc, hlit]
  constructor
  · intro h
    rw [dummyName, hsplit] at h
    have hd := congrArg String.data h
    rw [String.data_append, String.data_append] at hd
    exact String.ext (List.append_cancel_left hd)
  · intro h
    rw [dummyName, h, hsplit]

theorem dummyName_mem_categories (c : String) (data : List Value) (lv : Value)
    (h : lv ∈ dummyLevels data) : dummyName c lv ∈ categoriesOf c data := by
  have hm : lv ∈ data := ((mem_dummyLevels data lv).1 h).1
  rw [categoriesOf]
  exact List.mem_map.2 ⟨lv, (mem_uniqueFirst data lv).2 hm, rfl⟩

/-! ### The closed form of the encoder -/

/-- The central lemma: on a table that has column `c`, the encoder returns the
input with the category-named and temp-named columns removed, the indicator
block appended, paired with the first-occurrence category-name list. -/
theorem onehot_encode_spec (T : Table) (c : String) (col0 : Column)
    (h : getCol? T c = some col0) :
    onehot_encode T c =
      .ok (dropCols (dropCols T (categoriesOf c col0.data)) [c ++ "_Temp"]
             ++ dummiesFor c col0.data,
           categoriesOf c col0.data) := by
  have h1 : getCol? (dropCols T (categoriesOf c col0.data)) c = some col0 := by
    rw [getCol?_dropCols _ _ _ (self_not_mem_categories c col0.data), h]
  simp only [onehot_encode, h, h1, get_dummies, getCol?_setCol_self, dropCols_setCol]

theorem resTable_ok (p : Table × List String) : resTable (.ok p) = p.1 := rfl

theorem resCats_ok (p : Table × List String) : resCats (.ok p) = p.2 := rfl

theorem mem_dummiesFor (c : String) (data : List Value) (p : String × Column) :
    p ∈ dummiesFor c data ↔
      ∃ lv ∈ dummyLevels data, p = (dummyName c lv, indicatorColumn lv data) := by
  rw [dummiesFor, List.mem_map]
  constructor <;> rintro ⟨lv, h1, h2⟩ <;> exact ⟨lv, h1, h2.symm⟩

theorem indicatorCols_append (t₁ t₂ : Table) (cats : List String) :
    indicatorCols (t₁ ++ t₂) cats = indicatorCols t₁ cats ++ indicatorCols t₂ cats := by
  induction t₁ with
  | nil => rfl
  | cons p t ih => by_cases h : memStr p.1 cats <;> simp [indicatorCols, h, ih]

theorem indicatorCols_eq_nil (t : Table) (cats : List String)
    (h : ∀ p ∈ t, ¬ p.1 ∈ cats) : indicatorCols t cats = [] := by
  induction t with
  | nil => rfl
  | cons p t ih =>
    have hp : ¬ memStr p.1 cats := fun hm => h p (.head _) ((memStr_iff _ _).1 hm)
    rw [indicatorCols, if_neg hp, ih (fun q hq => h q (.tail _ hq))]

theorem indicatorCols_eq_self (t : Table) (cats : List String)
    (h : ∀ p ∈ t, p.1 ∈ cats) : indicatorCols t cats = t := by
  induction t with
  | nil => rfl
  | cons p t ih =>
    have hp : memStr p.1 cats := (memStr_iff _ _).2 (h p (.head _))
    rw [indicatorCols, if_pos hp, ih (fun q hq => h q (.tail _ hq))]

theorem dummiesFor_names_mem (c : String) (data : List Value) :
    ∀ p ∈ dummiesFor c data, p.1 ∈ categoriesOf c data := by
  intro p hp
  rcases (mem_dummiesFor c data p).1 hp with ⟨lv, hlv, rfl⟩
  exact dummyName_mem_categories c data lv hlv

/-- The columns of the result named after the returned categories are exactly
the generated indicator block. -/
theorem indicatorCols_res (T : Table) (c : String) (col0 : Column)
    (h : getCol? T c = some col0) :
    indicatorCols (resTable (onehot_encode T c)) (categoriesOf c col0.data)
      = dummiesFor c col0.data := by
  rw [onehot_encode_spec T c col0 h, resTable_ok, indicatorCols_append,
    indicatorCols_eq_nil _ _
      (fun p hp => ((mem_dropCols _ _ _).1 ((mem_dropCols _ _ _).1 hp).1).2),
    indicatorCols_eq_self _ _ (dummiesFor_names_mem c col0.data),
    List.nil_append]

/-! ### The function body as steps on an explicit object store

Python variables are references into a heap of dataframe objects.  `drop` and
`get_dummies` allocate new objects and the local `df` is rebound to them;
`df[temp] = df[c]` mutates the object `df` currently points to, which after
the rebinding is the freshly allocated copy, never the caller's object.  The
heap is a list of tables, a reference is an index, allocation appends at the
end, and mutation is `List.set`. -/

/-- The body of `onehot_encode` executed on an object store: `r` is the
caller's reference to the input dataframe.  Returns the final store and
either the error or the reference to the result object with the category
list. -/
def encodeStep (heap : List Table) (r : Nat) (c : String) :
    List Table × Except EncodeError (Nat × List String) :=
  match heap[r]? with
  | none => (heap, .error (.columnNotFound c))
  | some df =>
    match getCol? df c with
    | none => (heap, .error (.columnNotFound c))
    | some col0 =>
      let categories := categoriesOf c col0.data
      let heap1 := heap ++ [dropCols df categories]
      match heap1[heap.length]? with
      | none => (heap1, .error (.columnNotFound c))
      | some t1 =>
        match getCol? t1 c with
        | none => (heap1, .error (.columnNotFound c))
        | some col1 =>
          let heap2 := heap1.set heap.length (setCol t1 (c ++ "_Temp") col1)
          match heap2[heap.length]? with
          | none => (heap2, .error (.columnNotFound c))
          | some t2 =>
            (heap2 ++ [get_dummies t2 c (c ++ "_Temp")],
             .ok (heap2.length, categories))

/-- A table whose encoded column holds a missing value. -/
def exN : Table := [("color", ⟨Dtype.object, [Value.str "red", Value.null]⟩)]

/-- A table whose encoded column holds the string value `"Temp"`. -/
def exTempT : Table := [("c", ⟨Dtype.object, [Value.str "Temp"]⟩)]

/-- A table that already carries a column named like the temporary column. -/
def exPre : Table :=
  [("color_Temp", ⟨Dtype.object, [Value.str "x"]⟩),
   ("color", ⟨Dtype.object, [Value.str "red"]⟩)]

/-- Concrete evaluation of the encoder on the spec's running example. -/
theorem encode_exT_eval :
    resTable (onehot_encode exT "color") =
      [("id", ⟨Dtype.int64, [Value.num 1, Value.num 2, Value.num 3]⟩),
       ("color", ⟨Dtype.object, [Value.str "red", Value.str "blue", Value.str "red"]⟩),
       ("color_blue", ⟨Dtype.float64, [Value.num 0, Value.num 1, Value.num 0]⟩),
       ("color_red", ⟨Dtype.float64, [Value.num 1, Value.num 0, Value.num 1]⟩)] ∧
    resCats (onehot_encode exT "color") = ["color_red", "color_blue"] := by
  decide

/-- C8: on the object store, the object the caller passed in is untouched by
the call (`drop` rebinds the local name to a fresh copy and the in-place
assignment mutates only that copy), and an erroring call returns before any
allocation or mutation, leaving the whole store exactly as it was. -/
theorem encodeStep_no_mutation (heap : List Table) (r : Nat) (c : String) :
    (encodeStep heap r c).1[r]? = heap[r]? ∧
    ((encodeStep heap r c).2.isOk = false → (encodeStep heap r c).1 = heap) := by
  rcases hr : heap[r]? with _ | df
  · simp [encodeStep, hr]
  · have hrlt : r < heap.length := (List.getElem?_eq_some_iff.1 hr).1
    rcases hc : getCol? df c with _ | col0
    · simp [encodeStep, hr, hc]
    · have h1 : (heap ++ [dropCols df (categoriesOf c col0.data)])[heap.length]?
          = some (dropCols df (categoriesOf c col0.data)) :=
        List.getElem?_concat_length _ _
      have hget1 : getCol? (dropCols df (categoriesOf c col0.data)) c = some col0 := by
        rw [getCol?_dropCols _ _ _ (self_not_mem_categories c col0.data), hc]
      have hlt1 : heap.length < (heap ++ [dropCols df (categoriesOf c col0.data)]).length := by
        simp
      have h2 : ((heap ++ [dropCols df (categoriesOf c col0.data)]).set heap.length
            (setCol (dropCols df (categoriesOf c col0.data)) (c ++ "_Temp") col0))[heap.length]?
          = some (setCol (dropCols df (categoriesOf c col0.data)) (c ++ "_Temp") col0) :=
        List.getElem?_set_self hlt1
      simp only [encodeStep, hr, hc, h1, hget1, h2]
      refine ⟨?_, fun h => Bool.noConfusion h⟩
      have hne : heap.length ≠ r := Nat.ne_of_gt hrlt
      have hrlt2 : r < ((heap ++ [dropCols df (categoriesOf c col0.data)]).set heap.length
          (setCol (dropCols df (categoriesOf c col0.data)) (c ++ "_Temp") col0)).length := by
        rw [List.length_set, List.length_append]
        omega
      rw [List.getElem?_append_left hrlt2, List.getElem?_set_ne hne,
        List.getElem?_append_left hrlt, hr]

/-! ### Support for the claim theorems -/

instance {ε α : Type} [DecidableEq ε] [DecidableEq α] : DecidableEq (Except ε α) := fun a b =>
  match a, b with
  | .error e, .error f =>
    if h : e = f then .isTrue (by rw [h])
    else .isFalse (fun hh => h (Except.error.inj hh))
  | .error _, .ok _ => .isFalse (fun hh => Except.noConfusion hh)
  | .ok _, .error _ => .isFalse (fun hh => Except.noConfusion hh)
  | .ok x, .ok y =>
    if h : x = y then .isTrue (by rw [h])
    else .isFalse (fun hh => h (Except.ok.inj hh))

/-- How many columns of a table hold the float `1.0` in row `r`. -/
def onesAt : Table → Nat → Nat
  | [], _ => 0
  | p :: t, r => (if p.2.data[r]? = some (Value.num 1) then 1 else 0) + onesAt t r

theorem indicatorColumn_get (lv : Value) (data : List Value) (r : Nat) (v : Value)
    (hv : data[r]? = some v) :
    (indicatorColumn lv data).data[r]?
      = some (if v = lv then Value.num 1 else Value.num 0) := by
  rw [indicatorColumn]
  show (data.map fun x => if x = lv then Value.num 1 else Value.num 0)[r]? = _
  rw [List.getElem?_map, hv]
  rfl

theorem onesAt_dummies_zero (c : String) (data : List Value) (r : Nat) (v : Value)
    (hv : data[r]? = some v) (levels : List Value) (hnm : ¬ v ∈ levels) :
    onesAt (levels.map (fun lv => (dummyName c lv, indicatorColumn lv data))) r = 0 := by
  induction levels with
  | nil => rfl
  | cons lv ls ih =>
    have hne : ¬ v = lv := fun e => hnm (e ▸ List.mem_cons_self lv ls)
    have hrec := ih (fun hm => hnm (List.mem_cons_of_mem lv hm))
    simp only [List.map_cons, onesAt, indicatorColumn_get lv data r v hv, if_neg hne, hrec]
    simp

theorem onesAt_dummies_one (c : String) (data : List Value) (r : Nat) (v : Value)
    (hv : data[r]? = some v) (levels : List Value)
    (hnd : levels.Nodup) (hm : v ∈ levels) :
    onesAt (levels.map (fun lv => (dummyName c lv, indicatorColumn lv data))) r = 1 := by
  induction levels with
  | nil => cases hm
  | cons lv ls ih =>
    rcases List.mem_cons.1 hm with rfl | hm'
    · have hvls : ¬ v ∈ ls := (List.nodup_cons.1 hnd).1
      simp only [List.map_cons, onesAt, indicatorColumn_get v data r v hv, if_pos rfl,
        onesAt_dummies_zero c data r v hv ls hvls]
      simp
    · have hne : ¬ v = lv := fun e => (List.nodup_cons.1 hnd).1 (e ▸ hm')
      have hrec := ih (List.nodup_cons.1 hnd).2 hm'
      simp only [List.map_cons, onesAt, indicatorColumn_get lv data r v hv, if_neg hne, hrec]
      simp

theorem dummies_one_name (c : String) (data : List Value) (r : Nat) (v : Value)
    (p : String × Column) (hv : data[r]? = some v) (hp : p ∈ dummiesFor c data)
    (h1 : p.2.data[r]? = some (Value.num 1)) : p.1 = dummyName c v := by
  rcases (mem_dummiesFor c data p).1 hp with ⟨lv, _, rfl⟩
  rw [indicatorColumn_get lv data r v hv] at h1
  by_cases e : v = lv
  · subst e; rfl
  · rw [if_neg e] at h1
    exact absurd (Option.some.inj h1) (by decide)

theorem dummies_null_row (c : String) (data : List Value) (r : Nat)
    (p : String × Column) (hv : data[r]? = some Value.null)
    (hp : p ∈ dummiesFor c data) : p.2.data[r]? = some (Value.num 0) := by
  rcases (mem_dummiesFor c data p).1 hp with ⟨lv, hlv, rfl⟩
  have hnn : lv.isNull = false := ((mem_dummyLevels data lv).1 hlv).2
  have hne : ¬ (Value.null = lv) := fun e => by
    rw [← e] at hnn
    exact Bool.noConfusion hnn
  rw [indicatorColumn_get lv data r Value.null hv, if_neg hne]

theorem dummies_cells (c : String) (data : List Value) (p : String × Column)
    (hp : p ∈ dummiesFor c data) :
    p.2.dtype = Dtype.float64 ∧ ∀ x ∈ p.2.data, x = Value.num 0 ∨ x = Value.num 1 := by
  rcases (mem_dummiesFor c data p).1 hp with ⟨lv, _, rfl⟩
  refine ⟨rfl, ?_⟩
  intro x hx
  rcases List.mem_map.1 hx with ⟨y, _, hy⟩
  by_cases e : y = lv
  · rw [← hy, if_pos e]; exact Or.inr rfl
  · rw [← hy, if_neg e]; exact Or.inl rfl

theorem dummyName_inj_suffix (c : String) (v : Value) (s : String) :
    dummyName c v = (c ++ "_") ++ s ↔ stringify v = s := by
  constructor
  · intro h
    have hd := congrArg String.data h
    rw [dummyName, String.data_append, String.data_append] at hd
    exact String.ext (List.append_cancel_left hd)
  · intro h; rw [dummyName, h]

theorem overwriteCol_eq_self (t : Table) (c : String) (col : Column)
    (h : ∀ p ∈ t, p.1 = c → p = (c, col)) : overwriteCol t c col = t := by
  induction t with
  | nil => rfl
  | cons p ts ih =>
    by_cases e : p.1 = c
    · rw [overwriteCol, if_pos e, ih (fun q hq he => h q (.tail _ hq) he),
        ← h p (.head _) e]
    · rw [overwriteCol, if_neg e, ih (fun q hq he => h q (.tail _ hq) he)]

theorem eq_of_mem_of_nodup (t : Table) (hnd : (colNames t).Nodup)
    (p q : String × Column) (hp : p ∈ t) (hq : q ∈ t) (he : p.1 = q.1) : p = q := by
  induction t with
  | nil => cases hp
  | cons x ts ih =>
    rw [colNames_cons] at hnd
    have hnd' := List.nodup_cons.1 hnd
    cases hp with
    | head =>
      cases hq with
      | head => rfl
      | tail _ hq' =>
        exact absurd (he ▸ List.mem_map_of_mem Prod.fst hq') hnd'.1
    | tail _ hp' =>
      cases hq with
      | head =>
        exact absurd (he ▸ List.mem_map_of_mem Prod.fst hp') (fun hh => hnd'.1 hh)
      | tail _ hq' => exact ih hnd'.2 hp' hq'

theorem colNames_append (t₁ t₂ : Table) :
    colNames (t₁ ++ t₂) = colNames t₁ ++ colNames t₂ := List.map_append _ _ _

/-! ### The level order is a genuine ascending sort -/

theorem ratLt_iff (a b : ℚ) : ratLt a b = true ↔ a < b := by
  rw [ratLt, decide_eq_true_eq]
  exact Rat.lt_def.symm

theorem charListLt_asymm (a b : List Char) (h : charListLt a b = true) :
    charListLt b a = false := by
  induction a generalizing b with
  | nil =>
    cases b with
    | nil => exact absurd h (by simp [charListLt])
    | cons y ys => simp [charListLt]
  | cons x xs ih =>
    cases b with
    | nil => exact absurd h (by simp [charListLt])
    | cons y ys =>
      simp only [charListLt] at h ⊢
      by_cases h1 : x.toNat < y.toNat
      · rw [if_neg (by omega), if_pos h1]
      · by_cases h2 : y.toNat < x.toNat
        · rw [if_neg h1, if_pos h2] at h
          exact absurd h (by simp)
        · rw [if_neg h1, if_neg h2] at h
          rw [if_neg h2, if_neg h1]
          exact ih ys h

theorem charListLt_negtrans (a b c : List Char) (h1 : charListLt b a = false)
    (h2 : charListLt c b = false) : charListLt c a = false := by
  induction a generalizing b c with
  | nil => simp [charListLt]
  | cons x xs ih =>
    cases c with
    | nil =>
      cases b with
      | nil => exact absurd h1 (by simp [charListLt])
      | cons y ys => exact absurd h2 (by simp [charListLt])
    | cons z zs =>
      cases b with
      | nil => exact absurd h1 (by simp [charListLt])
      | cons y ys =>
        simp only [charListLt] at h1 h2 ⊢
        by_cases a1 : y.toNat < x.toNat
        · rw [if_pos a1] at h1; exact absurd h1 (by simp)
        · by_cases a2 : z.toNat < y.toNat
          · rw [if_pos a2] at h2; exact absurd h2 (by simp)
          · rw [if_neg a1] at h1
            rw [if_neg a2] at h2
            by_cases a3 : z.toNat < x.toNat
            · exact absurd a3 (by omega)
            · rw [if_neg a3]
              by_cases a4 : x.toNat < z.toNat
              · rw [if_pos a4]
              · rw [if_neg a4]
                by_cases a5 : x.toNat < y.toNat
                · exact absurd (show z.toNat < y.toNat by omega) a2
                · rw [if_neg a5] at h1
                  by_cases a6 : y.toNat < z.toNat
                  · exact absurd (show x.toNat < z.toNat by omega) a4
                  · rw [if_neg a6] at h2
                    exact ih ys zs h1 h2

theorem vlt_asymm (a b : Value) (h : vlt a b = true) : vlt b a = false := by
  cases a with
  | str s =>
    cases b with
    | str t =>
      have hc := charListLt_asymm s.data t.data (by simpa [vlt, strLt] using h)
      simpa [vlt, strLt] using hc
    | num q => exact absurd h (by simp [vlt])
    | null => simp [vlt]
  | num p =>
    cases b with
    | str t => simp [vlt]
    | num q =>
      have hpq : p < q := (ratLt_iff p q).1 (by simpa [vlt] using h)
      have hnq : ¬ q < p := lt_asymm hpq
      have : ¬ ratLt q p = true := fun hh => hnq ((ratLt_iff q p).1 hh)
      simpa [vlt] using Bool.eq_false_iff.2 this
    | null => simp [vlt]
  | null => exact absurd h (by simp [vlt])

theorem vlt_negtrans (a b c : Value) (h1 : vlt b a = false)
    (h2 : vlt c b = false) : vlt c a = false := by
  cases c with
  | null => cases a <;> simp [vlt]
  | str sc =>
    cases a with
    | null =>
      cases b with
      | null => exact absurd h2 (by simp [vlt])
      | str sb => exact absurd h1 (by simp [vlt])
      | num qb => exact absurd h1 (by simp [vlt])
    | num qa => simp [vlt]
    | str sa =>
      cases b with
      | null => exact absurd h2 (by simp [vlt])
      | num qb => exact absurd h1 (by simp [vlt])
      | str sb =>
        have hc := charListLt_negtrans sa.data sb.data sc.data
          (by simpa [vlt, strLt] using h1) (by simpa [vlt, strLt] using h2)
        simpa [vlt, strLt] using hc
  | num qc =>
    cases a with
    | null =>
      cases b with
      | null => exact absurd h2 (by simp [vlt])
      | str sb => exact absurd h1 (by simp [vlt])
      | num qb => exact absurd h1 (by simp [vlt])
    | str sa =>
      cases b with
      | null => exact absurd h2 (by simp [vlt])
      | str sb => exact absurd h2 (by simp [vlt])
      | num qb => exact absurd h1 (by simp [vlt])
    | num qa =>
      cases b with
      | null => exact absurd h2 (by simp [vlt])
      | str sb => exact absurd h2 (by simp [vlt])
      | num qb =>
        have hba : ¬ qb < qa := fun hh => by
          rw [show vlt (Value.num qb) (Value.num qa) = ratLt qb qa from rfl,
            (Bool.eq_false_iff)] at h1
          exact h1 ((ratLt_iff qb qa).2 hh)
        have hcb : ¬ qc < qb := fun hh => by
          rw [show vlt (Value.num qc) (Value.num qb) = ratLt qc qb from rfl,
            (Bool.eq_false_iff)] at h2
          exact h2 ((ratLt_iff qc qb).2 hh)
        have hca : ¬ qc < qa := fun hh => hcb (lt_of_lt_of_le hh (not_lt.1 hba))
        have : ¬ ratLt qc qa = true := fun hh => hca ((ratLt_iff qc qa).1 hh)
        simpa [vlt] using Bool.eq_false_iff.2 this

theorem insertVal_pairwise (v : Value) (l : List Value)
    (hl : l.Pairwise (fun a b => vlt b a = false)) :
    (insertVal v l).Pairwise (fun a b => vlt b a = false) := by
  induction l with
  | nil => simp [insertVal]
  | cons w ws ih =>
    rw [insertVal]
    have hws := List.pairwise_cons.1 hl
    by_cases h : vlt w v
    · rw [if_pos h]
      refine List.pairwise_cons.2 ⟨?_, ih hws.2⟩
      intro x hx
      rcases List.mem_cons.1 ((insertVal_perm v ws).mem_iff.1 hx) with rfl | hxw
      · exact vlt_asymm w x h
      · exact hws.1 x hxw
    · rw [if_neg h]
      refine List.pairwise_cons.2 ⟨?_, hl⟩
      intro x hx
      rcases List.mem_cons.1 hx with rfl | hxw
      · exact Bool.eq_false_iff.2 h
      · exact vlt_negtrans v w x (Bool.eq_false_iff.2 h) (hws.1 x hxw)

theorem sortVals_pairwise (l : List Value) :
    (sortVals l).Pairwise (fun a b => vlt b a = false) := by
  induction l with
  | nil => exact List.Pairwise.nil
  | cons v vs ih => exact insertVal_pairwise v (sortVals vs) ih

/-- The generated levels are pairwise ascending under the level order: for any
earlier level `a` and later level `b`, `b` is not below `a`. -/
theorem dummyLevels_sorted (data : List Value) :
    (dummyLevels data).Pairwise (fun a b => vlt b a = false) :=
  sortVals_pairwise _

/-! ### Claim theorems -/

/-- C1, counterexample: on the spec's own example the call succeeds and the
original `color` column is still among the result's columns, refuting "the
original categorical column is absent from the result".  (The source copies
the data to a temp column precisely so that `get_dummies` consumes the copy
and the original survives.) -/
theorem C1_counterexample :
    (onehot_encode exT "color").isOk = true ∧
    "color" ∈ colNames (resTable (onehot_encode exT "color")) := by
  decide

/-- C1, amended: for every table and column `c` present in it, the `c` column
is still present in the result of `encode`, with its data unchanged (the
encoding consumes only the temporary copy). -/
theorem C1_amended (T : Table) (c : String) (col0 : Column)
    (h : getCol? T c = some col0) :
    c ∈ colNames (resTable (onehot_encode T c)) ∧
    getCol? (resTable (onehot_encode T c)) c = some col0 := by
  have hg : getCol? (resTable (onehot_encode T c)) c = some col0 := by
    rw [onehot_encode_spec T c col0 h, resTable_ok]
    refine getCol?_append_of_some ?_ _
    have htemp : ¬ c ∈ [c ++ "_Temp"] := by
      intro hm
      simp only [List.mem_singleton] at hm
      exact temp_ne_self c hm.symm
    rw [getCol?_dropCols _ _ _ htemp,
      getCol?_dropCols _ _ _ (self_not_mem_categories c col0.data), h]
  refine ⟨?_, hg⟩
  have : (getCol? (resTable (onehot_encode T c)) c).isSome = true := by rw [hg]; rfl
  exact (getCol?_isSome_iff _ _).1 this

theorem C1_amended_witness :
    "color" ∈ colNames (resTable (onehot_encode exT "color")) ∧
    getCol? (resTable (onehot_encode exT "color")) "color"
      = some ⟨Dtype.object, [Value.str "red", Value.str "blue", Value.str "red"]⟩ :=
  C1_amended exT "color" _ (by decide)

/-- C2, counterexample: on the spec's own example the returned category list
is `[color_red, color_blue]` (first-occurrence order), but the indicator
columns are appended as `color_blue, color_red` (sorted order), so the result
is not the non-category columns followed by the categories in list order. -/
theorem C2_counterexample :
    (onehot_encode exT "color").isOk = true ∧
    resCats (onehot_encode exT "color") = ["color_red", "color_blue"] ∧
    colNames (resTable (onehot_encode exT "color"))
      = ["id", "color", "color_blue", "color_red"] ∧
    ¬ colNames (resTable (onehot_encode exT "color"))
        = colNames (dropCols (resTable (onehot_encode exT "color"))
            (resCats (onehot_encode exT "color")))
          ++ resCats (onehot_encode exT "color") := by
  decide

/-- C2, amended: the result is the non-category, non-temp columns in their
original relative order, followed by the indicator block; the indicator
columns are named and ordered by `dummyLevels`, the ascending sort of the
distinct non-missing values, which in general differs from the
first-occurrence order of the returned category list. -/
theorem C2_amended (T : Table) (c : String) (col0 : Column)
    (h : getCol? T c = some col0) :
    resTable (onehot_encode T c)
      = dropCols (dropCols T (categoriesOf c col0.data)) [c ++ "_Temp"]
          ++ dummiesFor c col0.data ∧
    colNames (dummiesFor c col0.data)
      = (sortVals (uniqueFirst (col0.data.filter (fun v => !v.isNull)))).map
          (dummyName c) ∧
    (dummyLevels col0.data).Pairwise (fun a b => vlt b a = false) := by
  refine ⟨by rw [onehot_encode_spec T c col0 h, resTable_ok], ?_, dummyLevels_sorted _⟩
  rw [dummiesFor, colNames, List.map_map, dummyLevels]
  rfl

theorem C2_amended_witness :
    resTable (onehot_encode exT "color")
      = dropCols (dropCols exT (categoriesOf "color"
            [Value.str "red", Value.str "blue", Value.str "red"]))
          ["color" ++ "_Temp"]
          ++ dummiesFor "color" [Value.str "red", Value.str "blue", Value.str "red"] ∧
    colNames (dummiesFor "color" [Value.str "red", Value.str "blue", Value.str "red"])
      = (sortVals (uniqueFirst ([Value.str "red", Value.str "blue",
            Value.str "red"].filter (fun v => !v.isNull)))).map (dummyName "color") ∧
    (dummyLevels [Value.str "red", Value.str "blue", Value.str "red"]).Pairwise
      (fun a b => vlt b a = false) :=
  C2_amended exT "color" ⟨Dtype.object, [Value.str "red", Value.str "blue", Value.str "red"]⟩
    (by decide)

/-- C3, counterexample: on a column holding a missing value the call succeeds
and the returned category list contains `color_nan`, but the result table has
no such indicator column (`get_dummies` keeps its default `dummy_na=False`),
refuting "the result table contains a dedicated indicator column" for null. -/
theorem C3_counterexample :
    (onehot_encode exN "color").isOk = true ∧
    "color_nan" ∈ resCats (onehot_encode exN "color") ∧
    ¬ "color_nan" ∈ colNames (resTable (onehot_encode exN "color")) := by
  decide

/-- C3, amended: a missing value is treated as a distinct value only in the
returned category list, which gains the entry `c_nan`; the call does not
error, and (provided no non-missing value of the column stringifies to
`"nan"`) the result table contains no indicator column for the missing
value. -/
theorem C3_amended (T : Table) (c : String) (col0 : Column)
    (h : getCol? T c = some col0)
    (hnull : Value.null ∈ col0.data)
    (hs : ∀ v ∈ col0.data, v.isNull = false → ¬ stringify v = "nan") :
    (onehot_encode T c).isOk = true ∧
    (c ++ "_nan") ∈ resCats (onehot_encode T c) ∧
    ¬ (c ++ "_nan") ∈ colNames (resTable (onehot_encode T c)) := by
  have hnanlit : ("_" ++ "nan" : String) = "_nan" := by decide
  have hsplit : (c ++ "_nan") = (c ++ "_") ++ "nan" := by
    rw [String.append_assoc, hnanlit]
  have hcat : (c ++ "_nan") ∈ categoriesOf c col0.data := by
    rw [categoriesOf]
    refine List.mem_map.2 ⟨Value.null, (mem_uniqueFirst _ _).2 hnull, ?_⟩
    rw [show stringify Value.null = "nan" from rfl]
    exact hsplit.symm
  refine ⟨?_, ?_, ?_⟩
  · rw [onehot_encode_spec T c col0 h]; rfl
  · rw [onehot_encode_spec T c col0 h, resCats_ok]
    exact hcat
  · rw [onehot_encode_spec T c col0 h, resTable_ok]
    intro hm
    rw [colNames_append] at hm
    rcases List.mem_append.1 hm with hm | hm
    · rcases List.mem_map.1 hm with ⟨p, hp, he⟩
      have hnc := ((mem_dropCols _ _ _).1 ((mem_dropCols _ _ _).1 hp).1).2
      exact hnc (he ▸ hcat)
    · rcases List.mem_map.1 hm with ⟨p, hp, he⟩
      rcases (mem_dummiesFor _ _ _).1 hp with ⟨lv, hlv, rfl⟩
      have hlv' := (mem_dummyLevels _ _).1 hlv
      have he' : dummyName c lv = (c ++ "_") ++ "nan" := by
        rw [← hsplit]; exact he
      exact hs lv hlv'.1 hlv'.2 ((dummyName_inj_suffix c lv "nan").1 he')

theorem C3_amended_witness :
    (onehot_encode exN "color").isOk = true ∧
    ("color" ++ "_nan") ∈ resCats (onehot_encode exN "color") ∧
    ¬ ("color" ++ "_nan") ∈ colNames (resTable (onehot_encode exN "color")) :=
  C3_amended exN "color" ⟨Dtype.object, [Value.str "red", Value.null]⟩
    (by decide) (by decide) (by decide)

/-- C4, counterexample: on a column with a missing value the call succeeds but
the row holding the missing value has no indicator equal to `1.0` at all (its
indicators are all `0.0`), refuting "exactly one indicator column per row has
value 1.0". -/
theorem C4_counterexample :
    (onehot_encode exN "color").isOk = true ∧
    onesAt (indicatorCols (resTable (onehot_encode exN "color"))
      (resCats (onehot_encode exN "color"))) 1 = 0 := by
  decide

/-- C4, amended: the indicator columns of the result are exactly the generated
block; every indicator cell is the float `0.0` or `1.0` and the columns carry
the float dtype; a row whose original value is non-missing has exactly one
indicator equal to `1.0`, namely the column named after that value; a row
whose original value is missing has every indicator equal to `0.0`. -/
theorem C4_amended (T : Table) (c : String) (col0 : Column)
    (h : getCol? T c = some col0) :
    indicatorCols (resTable (onehot_encode T c)) (categoriesOf c col0.data)
        = dummiesFor c col0.data ∧
    (∀ p ∈ dummiesFor c col0.data, p.2.dtype = Dtype.float64 ∧
        ∀ x ∈ p.2.data, x = Value.num 0 ∨ x = Value.num 1) ∧
    (∀ (r : Nat) (v : Value), col0.data[r]? = some v → v.isNull = false →
        onesAt (dummiesFor c col0.data) r = 1 ∧
        ∀ p ∈ dummiesFor c col0.data,
          p.2.data[r]? = some (Value.num 1) → p.1 = dummyName c v) ∧
    (∀ r : Nat, col0.data[r]? = some Value.null →
        ∀ p ∈ dummiesFor c col0.data, p.2.data[r]? = some (Value.num 0)) := by
  refine ⟨indicatorCols_res T c col0 h, fun p hp => dummies_cells c col0.data p hp,
    ?_, fun r hr p hp => dummies_null_row c col0.data r p hr hp⟩
  intro r v hv hnn
  have hm : v ∈ dummyLevels col0.data :=
    (mem_dummyLevels _ _).2 ⟨List.getElem?_mem hv, hnn⟩
  refine ⟨?_, fun p hp h1 => dummies_one_name c col0.data r v p hv hp h1⟩
  rw [dummiesFor]
  exact onesAt_dummies_one c col0.data r v hv _ (dummyLevels_nodup _) hm

theorem C4_amended_witness :
    onesAt (dummiesFor "color" [Value.str "red", Value.str "blue", Value.str "red"]) 0
      = 1 :=
  ((C4_amended exT "color"
      ⟨Dtype.object, [Value.str "red", Value.str "blue", Value.str "red"]⟩
      (by decide)).2.2.1 0 (Value.str "red") (by decide) (by decide)).1

/-- C5: the call fails if and only if the named column is absent, and the
failure is exactly `ColumnNotFoundError` for that name; when the column is
present the call returns a result. -/
theorem C5_error_iff (T : Table) (c : String) :
    ((onehot_encode T c).isOk = true ↔ c ∈ colNames T) ∧
    (¬ c ∈ colNames T → onehot_encode T c = .error (.columnNotFound c)) := by
  have herr : ¬ c ∈ colNames T → onehot_encode T c = .error (.columnNotFound c) := by
    intro hc
    have hn : getCol? T c = none := (getCol?_eq_none_iff T c).2 hc
    simp [onehot_encode, hn]
  refine ⟨⟨?_, ?_⟩, herr⟩
  · intro hok
    by_contra hc
    rw [herr hc] at hok
    exact Bool.noConfusion hok
  · intro hc
    rcases e : getCol? T c with _ | col0
    · exact absurd hc ((getCol?_eq_none_iff T c).1 e)
    · rw [onehot_encode_spec T c col0 e]; rfl

theorem C5_witness :
    onehot_encode exT "size" = .error (.columnNotFound "size") ∧
    (onehot_encode exT "color").isOk = true :=
  ⟨(C5_error_iff exT "size").2 (by decide), ((C5_error_iff exT "color").1).2 (by decide)⟩

/-- C6: re-encode safety.  If `(T1, cats1) = encode T c` and column `c` is
copied back into `T1` (it is in fact still there, so the copy overwrites it
with the same data), then encoding again succeeds and returns the very same
table and category list: the second drop removes exactly the previously
generated indicator columns and the encoding reproduces them. -/
theorem C6_reencode (T : Table) (c : String) (col0 : Column)
    (hnd : (colNames T).Nodup) (h : getCol? T c = some col0)
    (T1 : Table) (cats1 : List String)
    (h1 : onehot_encode T c = .ok (T1, cats1)) :
    onehot_encode (setCol T1 c col0) c = .ok (T1, cats1) := by
  rw [onehot_encode_spec T c col0 h] at h1
  have hpair := Except.ok.inj h1
  injection hpair with e1 e2
  subst e1
  subst e2
  have htempm : ¬ c ∈ [c ++ "_Temp"] := by
    intro hm
    simp only [List.mem_singleton] at hm
    exact temp_ne_self c hm.symm
  -- the pass-through block and the indicator block
  have hPmem : ∀ p ∈ dropCols (dropCols T (categoriesOf c col0.data)) [c ++ "_Temp"],
      p ∈ T ∧ ¬ p.1 ∈ categoriesOf c col0.data ∧ ¬ p.1 ∈ [c ++ "_Temp"] := by
    intro p hp
    have h₂ := (mem_dropCols _ _ _).1 hp
    have h₃ := (mem_dropCols _ _ _).1 h₂.1
    exact ⟨h₃.1, h₃.2, h₂.2⟩
  have hgetP : getCol? (dropCols (dropCols T (categoriesOf c col0.data)) [c ++ "_Temp"]) c
      = some col0 := by
    rw [getCol?_dropCols _ _ _ htempm,
      getCol?_dropCols _ _ _ (self_not_mem_categories c col0.data), h]
  have hgetT1 : getCol? (dropCols (dropCols T (categoriesOf c col0.data)) [c ++ "_Temp"]
      ++ dummiesFor c col0.data) c = some col0 := getCol?_append_of_some hgetP _
  -- copying the column back is the identity
  have hset : setCol (dropCols (dropCols T (categoriesOf c col0.data)) [c ++ "_Temp"]
      ++ dummiesFor c col0.data) c col0
      = dropCols (dropCols T (categoriesOf c col0.data)) [c ++ "_Temp"]
        ++ dummiesFor c col0.data := by
    rw [setCol, if_pos (by rw [hgetT1]; rfl)]
    refine overwriteCol_eq_self _ _ _ ?_
    intro p hp he
    rcases List.mem_append.1 hp with hp | hp
    · exact eq_of_mem_of_nodup T hnd p (c, col0) (hPmem p hp).1 (getCol?_mem h) he
    · rcases (mem_dummiesFor _ _ _).1 hp with ⟨lv, _, rfl⟩
      exact absurd he (dummyName_ne_self c lv)
  rw [hset, onehot_encode_spec _ c col0 hgetT1]
  -- the second drop restores the pass-through block
  have hdrop1 : dropCols (dropCols (dropCols T (categoriesOf c col0.data)) [c ++ "_Temp"]
      ++ dummiesFor c col0.data) (categoriesOf c col0.data)
      = dropCols (dropCols T (categoriesOf c col0.data)) [c ++ "_Temp"] := by
    rw [dropCols_append,
      dropCols_eq_self _ _ (fun p hp => (hPmem p hp).2.1),
      dropCols_eq_nil _ _ (dummiesFor_names_mem c col0.data),
      List.append_nil]
  have hdrop2 : dropCols (dropCols (dropCols T (categoriesOf c col0.data)) [c ++ "_Temp"])
      [c ++ "_Temp"]
      = dropCols (dropCols T (categoriesOf c col0.data)) [c ++ "_Temp"] :=
    dropCols_eq_self _ _ (fun p hp => (hPmem p hp).2.2)
  rw [hdrop1, hdrop2]

theorem C6_witness :
    onehot_encode (setCol
        [("id", ⟨Dtype.int64, [Value.num 1, Value.num 2, Value.num 3]⟩),
         ("color", ⟨Dtype.object, [Value.str "red", Value.str "blue", Value.str "red"]⟩),
         ("color_blue", ⟨Dtype.float64, [Value.num 0, Value.num 1, Value.num 0]⟩),
         ("color_red", ⟨Dtype.float64, [Value.num 1, Value.num 0, Value.num 1]⟩)]
        "color" ⟨Dtype.object, [Value.str "red", Value.str "blue", Value.str "red"]⟩) "color"
      = .ok ([("id", ⟨Dtype.int64, [Value.num 1, Value.num 2, Value.num 3]⟩),
              ("color", ⟨Dtype.object, [Value.str "red", Value.str "blue", Value.str "red"]⟩),
              ("color_blue", ⟨Dtype.float64, [Value.num 0, Value.num 1, Value.num 0]⟩),
              ("color_red", ⟨Dtype.float64, [Value.num 1, Value.num 0, Value.num 1]⟩)],
             ["color_red", "color_blue"]) :=
  C6_reencode exT "color" ⟨Dtype.object, [Value.str "red", Value.str "blue", Value.str "red"]⟩
    (by decide) (by decide) _ _ (by decide)

/-- C7: the returned category list is exactly
`columnName + "_" + stringify(value)` over the distinct values of the column
in first-occurrence order; the discovered value sequence has no duplicates, is
a subsequence of the column (so it preserves the column's order), and contains
exactly the column's values. -/
theorem C7_categories (T : Table) (c : String) (col0 : Column)
    (h : getCol? T c = some col0) :
    (onehot_encode T c).isOk = true ∧
    resCats (onehot_encode T c)
      = (uniqueFirst col0.data).map (fun v => c ++ "_" ++ stringify v) ∧
    (uniqueFirst col0.data).Nodup ∧
    (uniqueFirst col0.data).Sublist col0.data ∧
    (∀ v : Value, v ∈ uniqueFirst col0.data ↔ v ∈ col0.data) := by
  refine ⟨by rw [onehot_encode_spec T c col0 h]; rfl, ?_,
    uniqueAux_nodup _ _, uniqueFirst_sublist _, fun v => mem_uniqueFirst _ v⟩
  rw [onehot_encode_spec T c col0 h, resCats_ok, categoriesOf]

theorem C7_witness :
    resCats (onehot_encode exT "color")
      = (uniqueFirst [Value.str "red", Value.str "blue", Value.str "red"]).map
          (fun v => "color" ++ "_" ++ stringify v) :=
  (C7_categories exT "color"
    ⟨Dtype.object, [Value.str "red", Value.str "blue", Value.str "red"]⟩
    (by decide)).2.1

theorem C8_witness :
    (encodeStep [exT] 0 "size").1 = [exT] :=
  (encodeStep_no_mutation [exT] 0 "size").2 (by decide)

/-- C9: when the input table is row-aligned with `n` rows, every column of the
result again has `n` rows, and every input column that is not dropped (its
name matches no generated category name and is not the temp name) appears in
the result with its data untouched, so rows are neither dropped, added nor
reordered. -/
theorem C9_rows (T : Table) (c : String) (col0 : Column) (n : Nat)
    (h : getCol? T c = some col0)
    (hall : ∀ p ∈ T, p.2.data.length = n) :
    (∀ p ∈ resTable (onehot_encode T c), p.2.data.length = n) ∧
    (∀ p ∈ T, ¬ p.1 ∈ categoriesOf c col0.data → ¬ p.1 = c ++ "_Temp" →
      p ∈ resTable (onehot_encode T c)) := by
  rw [onehot_encode_spec T c col0 h, resTable_ok]
  constructor
  · intro p hp
    rcases List.mem_append.1 hp with hp | hp
    · exact hall p ((mem_dropCols _ _ _).1 ((mem_dropCols _ _ _).1 hp).1).1
    · rcases (mem_dummiesFor _ _ _).1 hp with ⟨lv, _, rfl⟩
      have hlen : col0.data.length = n := hall (c, col0) (getCol?_mem h)
      simp [indicatorColumn, hlen]
  · intro p hp h1 h2
    refine List.mem_append_left _ ?_
    refine (mem_dropCols _ _ _).2 ⟨(mem_dropCols _ _ _).2 ⟨hp, h1⟩, ?_⟩
    simp [h2]

theorem C9_witness :
    ("color_red", (⟨Dtype.float64, [Value.num 1, Value.num 0, Value.num 1]⟩ : Column)).2.data.length
      = 3 :=
  (C9_rows exT "color" ⟨Dtype.object, [Value.str "red", Value.str "blue", Value.str "red"]⟩ 3
    (by decide) (by decide)).1 _ (by decide)

/-- C10, counterexample: when the encoded column contains the string value
`"Temp"`, the generated indicator column is itself named `c_Temp`, so the
result does contain a column of that name, refuting the claim that the
returned table never contains a column named `c ++ "_Temp"`. -/
theorem C10_counterexample :
    (onehot_encode exTempT "c").isOk = true ∧
    ("c" ++ "_Temp") ∈ colNames (resTable (onehot_encode exTempT "c")) := by
  decide

/-- C10, amended: provided no value of the column stringifies to `"Temp"`,
the result never contains a column named `c + "_Temp"`: the temporary column
is always consumed, and a pre-existing input column of that name is
overwritten and destroyed by the call. -/
theorem C10_amended (T : Table) (c : String) (col0 : Column)
    (h : getCol? T c = some col0)
    (hT : ∀ v ∈ col0.data, ¬ stringify v = "Temp") :
    ¬ (c ++ "_Temp") ∈ colNames (resTable (onehot_encode T c)) := by
  rw [onehot_encode_spec T c col0 h, resTable_ok]
  intro hm
  rw [colNames_append] at hm
  rcases List.mem_append.1 hm with hm | hm
  · rcases List.mem_map.1 hm with ⟨p, hp, he⟩
    have hnt := ((mem_dropCols _ _ _).1 hp).2
    simp [he] at hnt
  · rcases List.mem_map.1 hm with ⟨p, hp, he⟩
    rcases (mem_dummiesFor _ _ _).1 hp with ⟨lv, hlv, rfl⟩
    have hsplit : (c ++ "_Temp") = (c ++ "_") ++ "Temp" := by
      have hlit : ("_" ++ "Temp" : String) = "_Temp" := by decide
      rw [String.append_assoc, hlit]
    have he' : dummyName c lv = (c ++ "_") ++ "Temp" := by rw [← hsplit]; exact he
    exact hT lv ((mem_dummyLevels _ _).1 hlv).1 ((dummyName_inj_suffix c lv "Temp").1 he')

theorem C10_witness :
    ¬ ("color" ++ "_Temp") ∈ colNames (resTable (onehot_encode exPre "color")) :=
  C10_amended exPre "color" ⟨Dtype.object, [Value.str "red"]⟩ (by decide) (by decide)
